import Mathlib

/-!
Verification development for the mDA (marginalized denoising autoencoder) layer
implemented in `mda_layer.py`.  The Python/numpy code is shallowly embedded over
exact arithmetic: matrices are functions `ℕ → ℕ → α` whose meaningful region is
determined by the explicit dimension arguments of each operation (mirroring the
numpy shapes), documents are dense functional vectors `ℕ → α`, and the numpy
least-squares solver `np.linalg.lstsq` — an external library call — is a
function parameter characterized by the minimum-norm least-squares property.
-/

namespace MDA

/-- Functional matrices: entry `M i j` is row `i`, column `j`.  Shapes are carried
by the dimension arguments of the operations that consume them, as in numpy. -/
abbrev FMat (α : Type) := ℕ → ℕ → α

section Defs

variable {α : Type} [Field α]

/-- Matrix product with explicit inner dimension: `(A · B) i j = Σ_{k<inner} A i k * B k j`. -/
def mulF (A B : FMat α) (inner : ℕ) : FMat α :=
  fun i j => ∑ k ∈ Finset.range inner, A i k * B k j

/-- Matrix transpose (`M.T` in numpy). -/
def transposeF (M : FMat α) : FMat α := fun i j => M j i

/-- Row fancy-indexing `M[ids]`: row `i` of the result is row `ids[i]` of `M`. -/
def rowSelect (ids : List ℕ) (M : FMat α) : FMat α :=
  fun i j => if h : i < ids.length then M (ids.get ⟨i, h⟩) j else 0

/-- Embedding of `vstack((M, ones))`: rows `0..r-1` come from `M`, row `r` is the
constant bias row of ones. -/
def appendBias (r : ℕ) (M : FMat α) : FMat α :=
  fun k j => if k < r then M k j else 1

/-- Embedding of `matutils.corpus2csc(chunk, ...)`: the matrix whose column `j` is
document `j` of the chunk. -/
def chunkMat (chunk : List (ℕ → α)) : FMat α :=
  fun i j => (chunk.getD j (fun _ => 0)) i

/-- Embedding of `utils.grouper(corpus, n)`: consecutive chunks of `n` documents,
the last chunk possibly shorter.  (For the degenerate `n = 0` the recursion takes
singleton chunks; all claims use positive chunk sizes.) -/
def chunks (n : ℕ) : List β → List (List β)
  | [] => []
  | x :: xs => (x :: xs.take (n - 1)) :: chunks n (xs.drop (n - 1))
termination_by l => l.length
decreasing_by simp only [List.length_drop, List.length_cons]; omega

/-- State of the mDA layer (`mDALayer.__init__` fields). -/
structure Layer (α : Type) where
  noise : α
  lambda_ : α
  input_dimensionality : ℕ
  output_dimensionality : ℕ
  prototype_ids : Option (List ℕ)
  randomized_indices : List ℕ
  num_folds : ℕ
  blocks : List (FMat α)

/-- Embedding of `mDALayer.__init__`.  The call to `np.random.permutation` in the
reduction branch is nondeterministic, so the drawn permutation `perm` is passed in
as a parameter; the identity branch uses `range(input_dimensionality)` as in the
source.  `num_folds = int(np.ceil(float(d) / output_dimensionality))` is embedded
with exact ceiling division. -/
def mkLayer (noise lam : α) (d : ℕ) (outDim : Option ℕ) (protoIds : Option (List ℕ))
    (perm : List ℕ) : Layer α :=
  if outDim = none ∨ outDim = some d then
    { noise := noise, lambda_ := lam, input_dimensionality := d,
      output_dimensionality := d, prototype_ids := protoIds,
      randomized_indices := List.range d,
      num_folds := Nat.ceil ((d : ℚ) / (d : ℚ)), blocks := [] }
  else
    { noise := noise, lambda_ := lam, input_dimensionality := d,
      output_dimensionality := outDim.getD d, prototype_ids := protoIds,
      randomized_indices := perm,
      num_folds := Nat.ceil ((d : ℚ) / ((outDim.getD d : ℕ) : ℚ)), blocks := [] }

/-- Embedding of `self.randomized_indices[f * output_dimensionality : (f+1) * output_dimensionality]`. -/
def blockIndices (layer : Layer α) (f : ℕ) : List ℕ :=
  (layer.randomized_indices.drop (f * layer.output_dimensionality)).take
    layer.output_dimensionality

/-- The fold's augmented chunk matrix `input_chunk = vstack((doc_chunk[block_indices], bias))`. -/
def augChunk (block : List ℕ) (chunk : List (ℕ → α)) : FMat α :=
  appendBias block.length (rowSelect block (chunkMat chunk))

/-- Per-chunk scatter contribution `input_chunk.dot(input_chunk.T)`. -/
def outerAcc (block : List ℕ) (chunk : List (ℕ → α)) : FMat α :=
  mulF (augChunk block chunk) (transposeF (augChunk block chunk)) chunk.length

/-- Per-chunk P contribution `target_representation_chunk.dot(input_chunk.T)`, where the
target representation is `job[filter_dimensions, :]` from `FilteringDualGrouper`. -/
def crossAcc (ids block : List ℕ) (chunk : List (ℕ → α)) : FMat α :=
  mulF (rowSelect ids (chunkMat chunk)) (transposeF (augChunk block chunk)) chunk.length

/-- Lazy initialization of a fold's `(scatter, P)` pair: zero matrices, with `P`
present exactly when a target representation is produced (i.e. when
`prototype_ids` / `filter_dimensions` is present). -/
def foldInit (layer : Layer α) : FMat α × Option (FMat α) :=
  ((0 : FMat α), if layer.prototype_ids.isSome then some (0 : FMat α) else none)

/-- One chunk's update of a fold's statistics:
`scatter += input_chunk.dot(input_chunk.T)` and, when present,
`P += target_representation_chunk.dot(input_chunk.T)`. -/
def foldStep (layer : Layer α) (chunk : List (ℕ → α)) (f : ℕ)
    (sp : FMat α × Option (FMat α)) : FMat α × Option (FMat α) :=
  (sp.1 + outerAcc (blockIndices layer f) chunk,
   sp.2.map (fun P =>
     P + crossAcc (layer.prototype_ids.getD []) (blockIndices layer f) chunk))

/-- One iteration of the inner training loop (`for dim_batch_idx in range(self.num_folds)`)
for one chunk: lazily initialize the fold's `(scatter, P)` pair to zeros on first
encounter (appending to `scatters_and_P_matrices`), then apply the chunk update in
place. -/
def updateFold (layer : Layer α) (chunk : List (ℕ → α))
    (st : List (FMat α × Option (FMat α))) (f : ℕ) : List (FMat α × Option (FMat α)) :=
  let sp := if st.length ≤ f then foldInit layer else st.getD f (0, none)
  if st.length ≤ f then st ++ [foldStep layer chunk f sp]
  else st.set f (foldStep layer chunk f sp)

/-- The inner fold loop over one chunk. -/
def innerLoop (layer : Layer α) (st : List (FMat α × Option (FMat α)))
    (chunk : List (ℕ → α)) : List (FMat α × Option (FMat α)) :=
  (List.range layer.num_folds).foldl (updateFold layer chunk) st

/-- The full accumulation pass of `mDALayer.train`: iterate the corpus in chunks and
update every fold's `(scatter, P)` statistics (`scatters_and_P_matrices`). -/
def accumulate (layer : Layer α) (corpus : List (ℕ → α)) (cs : ℕ) :
    List (FMat α × Option (FMat α)) :=
  (chunks cs corpus).foldl (innerLoop layer) []

/-- The corruption vector from `_computeWeights`: `ones * (1-noise)` with the last
(bias) entry reset to `1`. -/
def corruptionVec (noise : α) (r : ℕ) : ℕ → α :=
  fun i => if i = r then 1 else 1 - noise

/-- Embedding of the derivation of `Q` in `mDALayer._computeWeights`, following the
source's assignment sequence: `Q = scatter * (1-noise)**2`, then the overwrites
`Q[r] = scatter[r] * (1/(1-noise))`, `Q[:, r] = scatter[:, r] * (1/(1-noise))`,
`Q[-1,-1] = scatter[-1,-1] * (1/(1-noise)**2)`, and finally the diagonal
replacement `Q[idxs, idxs] = corruption.T * scatter[idxs, idxs]` for
`idxs = range(r+1)`. -/
def computeQ (r : ℕ) (noise : α) (scatter : FMat α) : FMat α :=
  let Q0 : FMat α := fun i j => scatter i j * (1 - noise) ^ 2
  let Q1 : FMat α := fun i j => if i = r then scatter i j * (1 / (1 - noise)) else Q0 i j
  let Q2 : FMat α := fun i j => if j = r then scatter i j * (1 / (1 - noise)) else Q1 i j
  let Q3 : FMat α := fun i j =>
    if i = r ∧ j = r then scatter i j * (1 / (1 - noise) ^ 2) else Q2 i j
  fun i j => if i = j ∧ i ≤ r then corruptionVec noise r i * scatter i i else Q3 i j

/-- Embedding of the regularizer in `_computeWeights`: `reg = eye(r+1) * lambda_`
followed by `reg[-1, -1] = 0`. -/
def regMat (r : ℕ) (lam : α) : FMat α :=
  let reg0 : FMat α := fun i j => if i = j ∧ i < r + 1 then lam else 0
  fun i j => if i = r ∧ j = r then 0 else reg0 i j

/-- Embedding of `P[:, :-1] *= (1 - noise)` in `mDALayer.train` (the P matrix has
`r+1` columns; every column but the last bias column is scaled). -/
def scaleP (r : ℕ) (noise : α) (P : FMat α) : FMat α :=
  fun i j => if j < r then P i j * (1 - noise) else P i j

/-- Embedding of `mDALayer._computeWeights` given an abstract least-squares solver
standing for `np.linalg.lstsq`: `weights = lstsq(Q + reg, P.T)[0].T`. -/
def computeWeights (solve : FMat α → FMat α → FMat α) (r : ℕ) (noise lam : α)
    (scatter P : FMat α) : FMat α :=
  transposeF (solve (computeQ r noise scatter + regMat r lam) (transposeF P))

/-- The per-fold weight derivation in `mDALayer.train`: when no P was accumulated,
`P = scatter_matrix.copy()`; then `P[:, :-1] *= (1 - noise)` and `_computeWeights`. -/
def foldTrainWeights (solve : FMat α → FMat α → FMat α) (r : ℕ) (noise lam : α)
    (scatter : FMat α) (Popt : Option (FMat α)) : FMat α :=
  computeWeights solve r noise lam scatter (scaleP r noise (Popt.getD scatter))

/-- The configuration failure raised by the assert at the start of `mDALayer.train`. -/
inductive TrainError where
  | configError

/-- The per-fold weights loop of `mDALayer.train`: for each accumulated fold entry
(`for block_num, (scatter_matrix, P) in enumerate(scatters_and_P_matrices)`)
compute the fold's weights; the fold size `r` passed to the weight computation is
the fold's block length, matching `r_dim = scatter.shape[0] - 1`. -/
def newBlocks (solve : FMat α → FMat α → FMat α) (layer : Layer α)
    (corpus : List (ℕ → α)) (cs : ℕ) : List (FMat α) :=
  (accumulate layer corpus cs).enum.map (fun p =>
    foldTrainWeights solve (blockIndices layer p.1).length layer.noise layer.lambda_
      p.2.1 p.2.2)

/-- The pair returned by a successful train call: the layer with the per-fold
weights appended to `blocks`, plus the processed-document count. -/
def trainBody (solve : FMat α → FMat α → FMat α) (layer : Layer α)
    (corpus : List (ℕ → α)) (cs : ℕ) : Layer α × ℕ :=
  ({ layer with blocks := layer.blocks ++ newBlocks solve layer corpus cs },
   ((chunks cs corpus).map List.length).sum)

/-- Embedding of `mDALayer.train`: the assert
`if input_dimensionality != output_dimensionality: assert prototype_ids is not None`
runs before any corpus iteration; on success the per-fold weights are appended to
`blocks`. -/
def train (solve : FMat α → FMat α → FMat α) (layer : Layer α)
    (corpus : List (ℕ → α)) (cs : ℕ) : Except TrainError (Layer α × ℕ) :=
  if layer.input_dimensionality ≠ layer.output_dimensionality ∧
      layer.prototype_ids = none then
    Except.error TrainError.configError
  else
    Except.ok (trainBody solve layer corpus cs)

/-- Embedding of `_get_intermediate_representations`: append the bias row to the
block input and multiply by the block weights. -/
def getIntermediate (w M : FMat α) (r : ℕ) : FMat α :=
  mulF w (appendBias r M) (r + 1)

/-- The fold-`f` hidden representation computed inside `_get_hidden_representations`:
`block_weights · vstack((input_data[block_indices], ones))`. -/
def foldHidden (layer : Layer α) (X : FMat α) (f : ℕ) : FMat α :=
  getIntermediate (layer.blocks.getD f 0) (rowSelect (blockIndices layer f) X)
    (blockIndices layer f).length

/-- The running-average loop of `_get_hidden_representations`: start from `None`;
the first fold installs its representation, each later fold `k` performs
`avg += (1/(k+1)) * (new - avg)`. -/
def runningFoldAvg (β : Type) [Field β] {M : Type} [AddCommGroup M] [Module β M]
    (h : ℕ → M) (n : ℕ) : Option M :=
  (List.range n).foldl (fun avg k =>
    match avg with
    | none => some (h k)
    | some a => some (a + (1 / ((k : β) + 1)) • (h k - a))) none

/-- The fold-averaged pre-activation of `_get_hidden_representations`. -/
def getHiddenAvg (layer : Layer α) (X : FMat α) : Option (FMat α) :=
  runningFoldAvg α (foldHidden layer X) layer.num_folds

end Defs

/-- Embedding of `_get_hidden_representations` over the reals: the running fold
average followed by the elementwise `np.tanh`. -/
noncomputable def getHiddenRepresentations (layer : Layer ℝ) (X : FMat ℝ) : Option (FMat ℝ) :=
  (getHiddenAvg layer X).map (fun A i j => Real.tanh (A i j))

section DocSums

variable {α : Type} [Field α]

/-- A single document's fold-augmented vector: the fold's coordinates with a
trailing bias `1`. -/
def augVec (block : List ℕ) (doc : ℕ → α) : ℕ → α :=
  fun k => if h : k < block.length then doc (block.get ⟨k, h⟩) else 1

/-- A single document's contribution to the fold scatter matrix: the outer product
of its augmented vector with itself. -/
def docOuter (block : List ℕ) (doc : ℕ → α) : FMat α :=
  fun i j => augVec block doc i * augVec block doc j

/-- A single document's contribution to the fold's P matrix: the outer product of
its target representation with its augmented vector. -/
def docCross (ids block : List ℕ) (doc : ℕ → α) : FMat α :=
  fun i j => (if h : i < ids.length then doc (ids.get ⟨i, h⟩) else 0) *
    augVec block doc j

end DocSums

/-- C1 failing input: the code's `Q[r_dim] = scatter[r_dim] * (1.0/(1-noise))`
assigns the uncorrupted scatter scaled up by `1/(1-noise)` to the bias cross-terms.
On the all-ones 2×2 scatter (`r = 1`) with `noise = 1/2` the code yields
`Q[1,0] = 2`, while the claimed value `(1-noise) * scatter[1,0] = 1/2`; the
symmetric column entry `Q[0,1]` diverges identically. -/
theorem c1_bias_cross_term_eval :
    computeQ 1 ((1 : ℚ)/2) (fun _ _ => (1 : ℚ)) 1 0 = 2 ∧
    computeQ 1 ((1 : ℚ)/2) (fun _ _ => (1 : ℚ)) 0 1 = 2 ∧
    (1 - (1 : ℚ)/2) * (1 : ℚ) = 1/2 ∧
    computeQ 1 ((1 : ℚ)/2) (fun _ _ => (1 : ℚ)) 1 0 ≠ (1 - (1 : ℚ)/2) * (1 : ℚ) := by
  refine ⟨?_, ?_, by norm_num, ?_⟩ <;> norm_num [computeQ, corruptionVec]

/-- C3: with `output_dimensionality < input_dimensionality` and no prototype ids the
assert at the start of `train` fires before the corpus is touched: the result is the
configuration error for every corpus, chunk size and solver. -/
theorem c3_config_error (noise lam : ℚ) (d o : ℕ) (perm : List ℕ)
    (solve : FMat ℚ → FMat ℚ → FMat ℚ) (corpus : List (ℕ → ℚ)) (cs : ℕ)
    (h : o < d) :
    train solve (mkLayer noise lam d (some o) none perm) corpus cs =
      Except.error TrainError.configError := by
  have hod : ¬((some o : Option ℕ) = none ∨ (some o : Option ℕ) = some d) := by
    simp only [Option.some.injEq, reduceCtorEq, false_or]
    omega
  rw [mkLayer, if_neg hod, train, if_pos]
  exact ⟨by simpa using (by omega : d ≠ o), rfl⟩

/-- C3 witness at a concrete configuration (`d = 10`, `o = 3`). -/
theorem c3_config_error_witness :
    train (fun _ B => B) (mkLayer (0 : ℚ) 0 10 (some 3) none []) [fun _ => 1] 1 =
      Except.error TrainError.configError :=
  c3_config_error 0 0 10 3 [] (fun _ B => B) [fun _ => 1] 1 (by norm_num)

/-- Recursion step for the fold count: removing one fold's worth of dimensions
drops the ceiling by one. -/
theorem ceil_div_succ (len out : ℕ) (h1 : 1 ≤ len) (ho : 1 ≤ out) :
    Nat.ceil ((len : ℚ) / (out : ℚ)) =
      Nat.ceil (((len - out : ℕ) : ℚ) / (out : ℚ)) + 1 := by
  have hout0 : (0 : ℚ) < (out : ℚ) := by exact_mod_cast ho
  rcases le_or_lt len out with hle | hlt
  · have hz : len - out = 0 := by omega
    rw [hz]
    simp only [Nat.cast_zero, zero_div, Nat.ceil_zero, zero_add]
    refine le_antisymm (Nat.ceil_le.2 ?_) (Nat.one_le_ceil_iff.2 ?_)
    · rw [Nat.cast_one, div_le_one hout0]
      exact_mod_cast hle
    · positivity
  · have hcast : ((len : ℚ)) / out = ((len - out : ℕ) : ℚ) / out + 1 := by
      rw [Nat.cast_sub (le_of_lt hlt)]
      field_simp
    rw [hcast, Nat.ceil_add_one (by positivity)]

/-- Consecutive length-`out` slices of a list, `Nat.ceil (length/out)` of them,
concatenate back to the list. -/
theorem slices_flatten (out : ℕ) (hout : 1 ≤ out) :
    ∀ (n : ℕ) (l : List ℕ), l.length = n →
      ((List.range (Nat.ceil ((l.length : ℚ) / (out : ℚ)))).map
        (fun f => (l.drop (f * out)).take out)).flatten = l := by
  intro n
  induction n using Nat.strong_induction_on with
  | _ n IH =>
    intro l hl
    match l with
    | [] => simp
    | x :: xs =>
      have hlen1 : 1 ≤ (x :: xs).length := by simp
      rw [ceil_div_succ _ _ hlen1 hout, List.range_succ_eq_map]
      simp only [List.map_cons, List.map_map, List.flatten_cons, Nat.zero_mul,
        List.drop_zero]
      have hslice : ∀ f : ℕ,
          ((x :: xs).drop (Nat.succ f * out)).take out =
            (((x :: xs).drop out).drop (f * out)).take out := by
        intro f
        rw [List.drop_drop, Nat.succ_mul, Nat.add_comm]
      have hdroplen : ((x :: xs).drop out).length = (x :: xs).length - out := by
        simp
      have hrec := IH ((x :: xs).length - out)
        (by omega) ((x :: xs).drop out) hdroplen
      rw [hdroplen] at hrec
      calc ((x :: xs).take out) ++
            (((List.range (Nat.ceil ((((x :: xs).length - out : ℕ) : ℚ) / out))).map
              (fun f => ((x :: xs).drop (Nat.succ f * out)).take out)).flatten)
          = ((x :: xs).take out) ++
            (((List.range (Nat.ceil ((((x :: xs).length - out : ℕ) : ℚ) / out))).map
              (fun f => (((x :: xs).drop out).drop (f * out)).take out)).flatten) := by
            rw [List.map_congr_left (fun f _ => hslice f)]
        _ = ((x :: xs).take out) ++ (x :: xs).drop out := by rw [hrec]
        _ = x :: xs := List.take_append_drop _ _

/-- Concatenation of the per-fold index blocks of a layer whose permutation has the
input length and whose fold count is the ceiling of input over output dimensionality. -/
theorem layer_slices (L : Layer ℚ) (ho : 1 ≤ L.output_dimensionality)
    (hlen : L.randomized_indices.length = L.input_dimensionality)
    (hnf : L.num_folds =
      Nat.ceil ((L.input_dimensionality : ℚ) / (L.output_dimensionality : ℚ))) :
    ((List.range L.num_folds).map (blockIndices L)).flatten = L.randomized_indices := by
  have h := slices_flatten L.output_dimensionality ho _ L.randomized_indices rfl
  rw [hlen] at h
  rw [hnf]
  simpa only [blockIndices] using h

/-- C5: the fold count is the ceiling of input over output dimensionality, the
per-fold index blocks concatenate to the dimension permutation (hence are pairwise
disjoint and cover `[0, d)` exactly once), and without reduction there is a single
fold over the identity ordering. -/
theorem c5_fold_partition (noise lam : ℚ) (d : ℕ) (outDim : Option ℕ)
    (protoIds : Option (List ℕ)) (perm : List ℕ) (L : Layer ℚ)
    (hL : L = mkLayer noise lam d outDim protoIds perm)
    (hperm : perm.Perm (List.range d)) (hd : 1 ≤ d) (ho : 1 ≤ outDim.getD d) :
    L.num_folds =
        Nat.ceil ((L.input_dimensionality : ℚ) / (L.output_dimensionality : ℚ)) ∧
    ((List.range L.num_folds).map (blockIndices L)).flatten = L.randomized_indices ∧
    L.randomized_indices.Perm (List.range d) ∧
    List.Pairwise List.Disjoint ((List.range L.num_folds).map (blockIndices L)) ∧
    ((outDim = none ∨ outDim = some d) →
      L.num_folds = 1 ∧ L.randomized_indices = List.range d) := by
  have hone : Nat.ceil ((d : ℚ) / (d : ℚ)) = 1 := by
    rw [div_self (by exact_mod_cast (by omega : d ≠ 0)), Nat.ceil_one]
  subst hL
  by_cases hc : outDim = none ∨ outDim = some d
  · rw [mkLayer, if_pos hc]
    have h2 := layer_slices
      { noise := noise, lambda_ := lam, input_dimensionality := d,
        output_dimensionality := d, prototype_ids := protoIds,
        randomized_indices := List.range d,
        num_folds := Nat.ceil ((d : ℚ) / (d : ℚ)), blocks := [] }
      hd (List.length_range d) rfl
    have hnd : ((List.range
        (Layer.num_folds (α := ℚ)
          { noise := noise, lambda_ := lam, input_dimensionality := d,
            output_dimensionality := d, prototype_ids := protoIds,
            randomized_indices := List.range d,
            num_folds := Nat.ceil ((d : ℚ) / (d : ℚ)), blocks := [] })).map
        (blockIndices
          { noise := noise, lambda_ := lam, input_dimensionality := d,
            output_dimensionality := d, prototype_ids := protoIds,
            randomized_indices := List.range d,
            num_folds := Nat.ceil ((d : ℚ) / (d : ℚ)), blocks := [] })).flatten.Nodup := by
      rw [h2]
      exact List.nodup_range d
    exact ⟨rfl, h2, List.Perm.refl _, (List.nodup_flatten.1 hnd).2,
      fun _ => ⟨hone, rfl⟩⟩
  · rw [mkLayer, if_neg hc]
    have hpl : perm.length = d := by simpa using hperm.length_eq
    have h2 := layer_slices
      { noise := noise, lambda_ := lam, input_dimensionality := d,
        output_dimensionality := outDim.getD d, prototype_ids := protoIds,
        randomized_indices := perm,
        num_folds := Nat.ceil ((d : ℚ) / ((outDim.getD d : ℕ) : ℚ)), blocks := [] }
      ho hpl rfl
    have hnd : ((List.range
        (Layer.num_folds (α := ℚ)
          { noise := noise, lambda_ := lam, input_dimensionality := d,
            output_dimensionality := outDim.getD d, prototype_ids := protoIds,
            randomized_indices := perm,
            num_folds := Nat.ceil ((d : ℚ) / ((outDim.getD d : ℕ) : ℚ)),
            blocks := [] })).map
        (blockIndices
          { noise := noise, lambda_ := lam, input_dimensionality := d,
            output_dimensionality := outDim.getD d, prototype_ids := protoIds,
            randomized_indices := perm,
            num_folds := Nat.ceil ((d : ℚ) / ((outDim.getD d : ℕ) : ℚ)),
            blocks := [] })).flatten.Nodup := by
      rw [h2]
      exact hperm.nodup_iff.2 (List.nodup_range d)
    exact ⟨rfl, h2, hperm, (List.nodup_flatten.1 hnd).2, fun hcc => absurd hcc hc⟩

/-- C5 witness at a concrete reduction layer (`d = 3`, `o = 2`, permutation `[2,0,1]`). -/
theorem c5_fold_partition_witness :
    (mkLayer (0 : ℚ) 0 3 (some 2) none [2, 0, 1]).num_folds =
        Nat.ceil (((mkLayer (0 : ℚ) 0 3 (some 2) none [2, 0, 1]).input_dimensionality : ℚ) /
          ((mkLayer (0 : ℚ) 0 3 (some 2) none [2, 0, 1]).output_dimensionality : ℚ)) ∧
    ((List.range (mkLayer (0 : ℚ) 0 3 (some 2) none [2, 0, 1]).num_folds).map
        (blockIndices (mkLayer (0 : ℚ) 0 3 (some 2) none [2, 0, 1]))).flatten =
      (mkLayer (0 : ℚ) 0 3 (some 2) none [2, 0, 1]).randomized_indices ∧
    (mkLayer (0 : ℚ) 0 3 (some 2) none [2, 0, 1]).randomized_indices.Perm
      (List.range 3) ∧
    List.Pairwise List.Disjoint
      ((List.range (mkLayer (0 : ℚ) 0 3 (some 2) none [2, 0, 1]).num_folds).map
        (blockIndices (mkLayer (0 : ℚ) 0 3 (some 2) none [2, 0, 1]))) ∧
    (((some 2 : Option ℕ) = none ∨ (some 2 : Option ℕ) = some 3) →
      (mkLayer (0 : ℚ) 0 3 (some 2) none [2, 0, 1]).num_folds = 1 ∧
      (mkLayer (0 : ℚ) 0 3 (some 2) none [2, 0, 1]).randomized_indices = List.range 3) :=
  c5_fold_partition 0 0 3 (some 2) none [2, 0, 1] _ rfl (by decide) (by decide)
    (by decide)

section Accumulation

variable {α : Type} [Field α]

/-- Pointwise evaluation of a sum of functional matrices. -/
theorem sumFMat_apply (l : List (FMat α)) (i j : ℕ) :
    l.sum i j = (l.map (fun M => M i j)).sum := by
  induction l with
  | nil => rfl
  | cons M s IH => simp only [List.sum_cons, List.map_cons, Pi.add_apply, IH]

/-- Sum of a mapped list, rewritten as a sum over positions. -/
theorem map_sum_eq_range_sum {β : Type} (d₀ : β) (F : β → α) :
    ∀ l : List β, (l.map F).sum = ∑ t ∈ Finset.range l.length, F (l.getD t d₀) := by
  intro l
  induction l with
  | nil => simp
  | cons x xs IH =>
    simp only [List.map_cons, List.sum_cons, List.length_cons]
    rw [Finset.sum_range_succ']
    simp only [List.getD_cons_succ, List.getD_cons_zero]
    rw [IH, add_comm]

/-- Column `t` of the augmented chunk matrix is the augmented vector of document `t`. -/
theorem augChunk_eq (block : List ℕ) (chunk : List (ℕ → α)) (i t : ℕ) :
    augChunk block chunk i t = augVec block (chunk.getD t (fun _ => 0)) i := by
  by_cases h : i < block.length
  · simp [augChunk, appendBias, rowSelect, chunkMat, augVec, h]
  · simp [augChunk, appendBias, augVec, h]

/-- The per-chunk scatter update is the sum of the chunk documents' augmented outer
products. -/
theorem outerAcc_eq_docSum (block : List ℕ) (chunk : List (ℕ → α)) :
    outerAcc block chunk = (chunk.map (docOuter block)).sum := by
  funext i j
  rw [sumFMat_apply, List.map_map]
  rw [show ((fun M : FMat α => M i j) ∘ docOuter block) =
      fun doc => docOuter block doc i j from rfl]
  rw [map_sum_eq_range_sum (fun _ => 0) _ chunk]
  unfold outerAcc mulF transposeF
  refine Finset.sum_congr rfl (fun t _ => ?_)
  rw [augChunk_eq, augChunk_eq]
  rfl

/-- The per-chunk P update is the sum of the chunk documents' target/augmented outer
products. -/
theorem crossAcc_eq_docSum (ids block : List ℕ) (chunk : List (ℕ → α)) :
    crossAcc ids block chunk = (chunk.map (docCross ids block)).sum := by
  funext i j
  rw [sumFMat_apply, List.map_map]
  rw [show ((fun M : FMat α => M i j) ∘ docCross ids block) =
      fun doc => docCross ids block doc i j from rfl]
  rw [map_sum_eq_range_sum (fun _ => 0) _ chunk]
  unfold crossAcc mulF transposeF rowSelect chunkMat
  refine Finset.sum_congr rfl (fun t _ => ?_)
  rw [augChunk_eq]
  rfl

/-- Chunking a corpus and concatenating the chunks recovers the corpus. -/
theorem chunks_flatten {β : Type} (n : ℕ) :
    ∀ (m : ℕ) (l : List β), l.length = m → (chunks n l).flatten = l := by
  intro m
  induction m using Nat.strong_induction_on with
  | _ m IH =>
    intro l hl
    match l with
    | [] => simp [chunks]
    | x :: xs =>
      rw [chunks]
      simp only [List.flatten_cons]
      rw [IH (xs.length - (n - 1)) (by simp only [List.length_cons] at hl; omega)
        (xs.drop (n - 1)) (by simp)]
      rw [List.cons_append, List.take_append_drop]

/-- Reading an entry of a mapped range list. -/
theorem getD_map_range {σ : Type} (n k : ℕ) (G : ℕ → σ) (d : σ) :
    ((List.range n).map G).getD k d = if k < n then G k else d := by
  by_cases h : k < n
  · rw [if_pos h, List.getD_eq_getElem _ _ (by simpa using h)]
    simp
  · rw [if_neg h, List.getD_eq_default _ _ (by simpa using Nat.le_of_not_lt h)]

/-- Setting an entry of a mapped range list. -/
theorem set_map_range {σ : Type} (n k : ℕ) (G : ℕ → σ) (v : σ) (_hk : k < n) :
    ((List.range n).map G).set k v =
      (List.range n).map (fun f => if f = k then v else G f) := by
  apply List.ext_getElem (by simp)
  intro i h1 h2
  rw [List.getElem_set]
  by_cases hik : k = i
  · subst hik
    simp
  · rw [if_neg hik]
    simp only [List.getElem_map, List.getElem_range]
    rw [if_neg (fun he => hik he.symm)]

/-- The inner fold loop over the folds `k, k+1, …, k+m-1`, acting on a state that
already holds one entry per fold, applies the chunk update to exactly those folds. -/
theorem innerLoop_full (layer : Layer α) (chunk : List (ℕ → α)) :
    ∀ (m k : ℕ) (G : ℕ → FMat α × Option (FMat α)), k + m ≤ layer.num_folds →
      (List.range' k m).foldl (updateFold layer chunk)
          ((List.range layer.num_folds).map G) =
        (List.range layer.num_folds).map
          (fun f => if k ≤ f ∧ f < k + m then foldStep layer chunk f (G f) else G f) := by
  intro m
  induction m with
  | zero =>
    intro k G _
    simp only [List.range', List.foldl_nil]
    refine (List.map_congr_left ?_).symm
    intro f _
    rw [if_neg (by omega)]
  | succ m IH =>
    intro k G hk
    rw [List.range'_succ, List.foldl_cons]
    have hkn : k < layer.num_folds := by omega
    have hlen : ((List.range layer.num_folds).map G).length = layer.num_folds := by simp
    have hupd : updateFold layer chunk ((List.range layer.num_folds).map G) k =
        (List.range layer.num_folds).map
          (fun f => if f = k then foldStep layer chunk k (G k) else G f) := by
      simp only [updateFold, hlen]
      rw [if_neg (Nat.not_le.2 hkn), if_neg (Nat.not_le.2 hkn), getD_map_range,
        if_pos hkn, set_map_range _ _ _ _ hkn]
    rw [hupd, IH (k + 1) _ (by omega)]
    refine List.map_congr_left ?_
    intro f _
    by_cases h1 : k + 1 ≤ f ∧ f < k + 1 + m
    · rw [if_pos h1, if_neg (by omega : ¬ f = k), if_pos (by omega)]
    · rw [if_neg h1]
      by_cases h2 : f = k
      · subst h2
        rw [if_pos rfl, if_pos (by omega)]
      · rw [if_neg h2, if_neg (by omega)]

/-- The inner fold loop over the folds `k, k+1, …`, starting from a state with
exactly `k` entries, appends one freshly initialized and updated entry per fold. -/
theorem innerLoop_append (layer : Layer α) (chunk : List (ℕ → α)) :
    ∀ (m k : ℕ) (st : List (FMat α × Option (FMat α))), st.length = k →
      (List.range' k m).foldl (updateFold layer chunk) st =
        st ++ (List.range' k m).map (fun f => foldStep layer chunk f (foldInit layer)) := by
  intro m
  induction m with
  | zero =>
    intro k st h
    simp [List.range']
  | succ m IH =>
    intro k st h
    rw [List.range'_succ, List.foldl_cons]
    have hupd : updateFold layer chunk st k =
        st ++ [foldStep layer chunk k (foldInit layer)] := by
      simp only [updateFold, h]
      rw [if_pos (le_refl k), if_pos (le_refl k)]
    rw [hupd, IH (k + 1) (st ++ [foldStep layer chunk k (foldInit layer)]) (by simp [h]),
      List.append_assoc, List.singleton_append, List.map_cons]

/-- The inner fold loop starting from the empty state creates one entry per fold. -/
theorem innerLoop_nil (layer : Layer α) (chunk : List (ℕ → α)) :
    innerLoop layer [] chunk =
      (List.range layer.num_folds).map
        (fun f => foldStep layer chunk f (foldInit layer)) := by
  unfold innerLoop
  rw [List.range_eq_range']
  simpa using innerLoop_append layer chunk layer.num_folds 0 [] rfl

/-- The inner fold loop on a full state updates every fold's entry. -/
theorem innerLoop_map (layer : Layer α) (chunk : List (ℕ → α))
    (G : ℕ → FMat α × Option (FMat α)) :
    innerLoop layer ((List.range layer.num_folds).map G) chunk =
      (List.range layer.num_folds).map (fun f => foldStep layer chunk f (G f)) := by
  have h := innerLoop_full layer chunk layer.num_folds 0 G (by omega)
  rw [← List.range_eq_range'] at h
  unfold innerLoop
  rw [h]
  refine List.map_congr_left ?_
  intro f hf
  rw [if_pos ⟨Nat.zero_le f, by simpa using List.mem_range.1 hf⟩]

/-- Closed form of the accumulated per-fold statistics after a nonempty list of
chunks: one entry per fold, holding the chunk-summed scatter matrix and (exactly
when a target representation is configured) the chunk-summed P matrix. -/
theorem foldl_innerLoop_closed (layer : Layer α) :
    ∀ (chs : List (List (ℕ → α))), chs ≠ [] →
      chs.foldl (innerLoop layer) [] =
        (List.range layer.num_folds).map (fun f =>
          ((chs.map (outerAcc (blockIndices layer f))).sum,
           if layer.prototype_ids.isSome then
             some ((chs.map (crossAcc (layer.prototype_ids.getD [])
               (blockIndices layer f))).sum)
           else none)) := by
  intro chs
  induction chs using List.reverseRecOn with
  | nil => intro h; exact absurd rfl h
  | append_singleton chs' c IH =>
    intro _
    rw [List.foldl_append, List.foldl_cons, List.foldl_nil]
    by_cases hc : chs' = []
    · subst hc
      simp only [List.foldl_nil, List.nil_append]
      rw [innerLoop_nil]
      refine List.map_congr_left (fun f _ => ?_)
      by_cases hp : layer.prototype_ids.isSome <;>
        simp [foldStep, foldInit, hp]
    · rw [IH hc, innerLoop_map]
      refine List.map_congr_left (fun f _ => ?_)
      by_cases hp : layer.prototype_ids.isSome <;>
        simp [foldStep, hp, add_assoc]

/-- Chunk-summed scatter contributions equal document-summed contributions. -/
theorem chunk_outer_sum (block : List ℕ) (corpus : List (ℕ → α)) (cs : ℕ) :
    ((chunks cs corpus).map (outerAcc block)).sum =
      (corpus.map (docOuter block)).sum := by
  rw [List.map_congr_left
    (fun c (_ : c ∈ chunks cs corpus) => outerAcc_eq_docSum block c)]
  rw [show (chunks cs corpus).map (fun c => (c.map (docOuter block)).sum) =
      ((chunks cs corpus).map (List.map (docOuter block))).map List.sum from by
    rw [List.map_map]; rfl]
  rw [← List.sum_flatten, ← List.map_flatten, chunks_flatten cs corpus.length corpus rfl]

/-- Chunk-summed P contributions equal document-summed contributions. -/
theorem chunk_cross_sum (ids block : List ℕ) (corpus : List (ℕ → α)) (cs : ℕ) :
    ((chunks cs corpus).map (crossAcc ids block)).sum =
      (corpus.map (docCross ids block)).sum := by
  rw [List.map_congr_left
    (fun c (_ : c ∈ chunks cs corpus) => crossAcc_eq_docSum ids block c)]
  rw [show (chunks cs corpus).map (fun c => (c.map (docCross ids block)).sum) =
      ((chunks cs corpus).map (List.map (docCross ids block))).map List.sum from by
    rw [List.map_map]; rfl]
  rw [← List.sum_flatten, ← List.map_flatten, chunks_flatten cs corpus.length corpus rfl]

end Accumulation

/-- C4: after a full pass the accumulated `scatter[f]` equals the exact sum over
every corpus document of the outer product of its fold-`f` augmented vector with
itself, and two chunk sizes produce identical final fold statistics (scatter and P)
in exact arithmetic. -/
theorem c4_chunk_invariance (layer : Layer ℚ) (corpus : List (ℕ → ℚ)) (cs₁ cs₂ f : ℕ)
    (_h1 : 1 ≤ cs₁) (_h2 : 1 ≤ cs₂) (hf : f < layer.num_folds) :
    ((accumulate layer corpus cs₁).getD f (0, none)).1 =
      (corpus.map (docOuter (blockIndices layer f))).sum ∧
    (accumulate layer corpus cs₁).getD f (0, none) =
      (accumulate layer corpus cs₂).getD f (0, none) := by
  rcases corpus with _ | ⟨x, xs⟩
  · constructor
    · simp [accumulate, chunks]
    · simp [accumulate, chunks]
  · have hform : ∀ cs : ℕ, (accumulate layer (x :: xs) cs).getD f (0, none) =
        (((x :: xs).map (docOuter (blockIndices layer f))).sum,
         if layer.prototype_ids.isSome then
           some (((x :: xs).map (docCross (layer.prototype_ids.getD [])
             (blockIndices layer f))).sum)
         else none) := by
      intro cs
      unfold accumulate
      rw [foldl_innerLoop_closed layer _ (by rw [chunks]; exact List.cons_ne_nil _ _)]
      rw [getD_map_range, if_pos hf, chunk_outer_sum]
      by_cases hp : layer.prototype_ids.isSome <;> simp [hp, chunk_cross_sum]
    exact ⟨by rw [hform cs₁], by rw [hform cs₁, hform cs₂]⟩

/-- C4 witness at a concrete layer and two-document corpus with chunk sizes 1 and 2. -/
theorem c4_chunk_invariance_witness :
    ((accumulate (α := ℚ)
        { noise := 0, lambda_ := 0, input_dimensionality := 2,
          output_dimensionality := 2, prototype_ids := none,
          randomized_indices := [0, 1], num_folds := 1, blocks := [] }
        ([fun _ => 1, fun n => (n : ℚ)] : List (ℕ → ℚ)) 1).getD 0 (0, none)).1 =
      ((([fun _ => 1, fun n => (n : ℚ)] : List (ℕ → ℚ)).map
        (docOuter (blockIndices
          { noise := 0, lambda_ := 0, input_dimensionality := 2,
            output_dimensionality := 2, prototype_ids := none,
            randomized_indices := [0, 1], num_folds := 1, blocks := [] } 0)))).sum ∧
    (accumulate (α := ℚ)
        { noise := 0, lambda_ := 0, input_dimensionality := 2,
          output_dimensionality := 2, prototype_ids := none,
          randomized_indices := [0, 1], num_folds := 1, blocks := [] }
        ([fun _ => 1, fun n => (n : ℚ)] : List (ℕ → ℚ)) 1).getD 0 (0, none) =
      (accumulate (α := ℚ)
        { noise := 0, lambda_ := 0, input_dimensionality := 2,
          output_dimensionality := 2, prototype_ids := none,
          randomized_indices := [0, 1], num_folds := 1, blocks := [] }
        ([fun _ => 1, fun n => (n : ℚ)] : List (ℕ → ℚ)) 2).getD 0 (0, none) :=
  c4_chunk_invariance
    { noise := 0, lambda_ := 0, input_dimensionality := 2,
      output_dimensionality := 2, prototype_ids := none,
      randomized_indices := [0, 1], num_folds := 1, blocks := [] }
    ([fun _ => 1, fun n => (n : ℚ)] : List (ℕ → ℚ)) 1 2 0 (by norm_num) (by norm_num) (by norm_num)

section SymPsd

/-- Symmetry together with positive semidefiniteness of every leading principal
quadratic form. -/
def SymGram (S : FMat ℚ) : Prop :=
  (∀ i j, S i j = S j i) ∧
  ∀ (m : ℕ) (v : ℕ → ℚ),
    0 ≤ ∑ i ∈ Finset.range m, ∑ j ∈ Finset.range m, v i * S i j * v j

/-- The zero matrix is symmetric and positive semidefinite. -/
theorem symGram_zero : SymGram (0 : FMat ℚ) := by
  constructor
  · intro i j
    rfl
  · intro m v
    simp [Pi.zero_apply]

/-- Symmetric positive semidefinite matrices are closed under addition. -/
theorem symGram_add {A B : FMat ℚ} (hA : SymGram A) (hB : SymGram B) :
    SymGram (A + B) := by
  constructor
  · intro i j
    simp only [Pi.add_apply, hA.1 i j, hB.1 i j]
  · intro m v
    have hsplit : ∑ i ∈ Finset.range m, ∑ j ∈ Finset.range m,
        v i * (A + B) i j * v j =
        (∑ i ∈ Finset.range m, ∑ j ∈ Finset.range m, v i * A i j * v j) +
        (∑ i ∈ Finset.range m, ∑ j ∈ Finset.range m, v i * B i j * v j) := by
      rw [← Finset.sum_add_distrib]
      refine Finset.sum_congr rfl (fun i _ => ?_)
      rw [← Finset.sum_add_distrib]
      refine Finset.sum_congr rfl (fun j _ => ?_)
      simp only [Pi.add_apply]
      ring
    rw [hsplit]
    exact add_nonneg (hA.2 m v) (hB.2 m v)

/-- Quadratic forms of Gram-type matrices are nonnegative. -/
theorem gram_nonneg (A : FMat ℚ) (L m : ℕ) (v : ℕ → ℚ) :
    0 ≤ ∑ i ∈ Finset.range m, ∑ j ∈ Finset.range m,
      v i * (∑ t ∈ Finset.range L, A i t * A j t) * v j := by
  have hswap : ∑ i ∈ Finset.range m, ∑ j ∈ Finset.range m,
      v i * (∑ t ∈ Finset.range L, A i t * A j t) * v j =
      ∑ t ∈ Finset.range L, (∑ i ∈ Finset.range m, v i * A i t) ^ 2 := by
    calc ∑ i ∈ Finset.range m, ∑ j ∈ Finset.range m,
        v i * (∑ t ∈ Finset.range L, A i t * A j t) * v j
        = ∑ i ∈ Finset.range m, ∑ j ∈ Finset.range m, ∑ t ∈ Finset.range L,
            v i * (A i t * A j t) * v j := by
          refine Finset.sum_congr rfl fun i _ => Finset.sum_congr rfl fun j _ => ?_
          rw [Finset.mul_sum, Finset.sum_mul]
      _ = ∑ t ∈ Finset.range L, ∑ i ∈ Finset.range m, ∑ j ∈ Finset.range m,
            v i * (A i t * A j t) * v j := by
          rw [Finset.sum_congr rfl fun i _ => Finset.sum_comm, Finset.sum_comm]
      _ = ∑ t ∈ Finset.range L, (∑ i ∈ Finset.range m, v i * A i t) *
            (∑ j ∈ Finset.range m, v j * A j t) := by
          refine Finset.sum_congr rfl fun t _ => ?_
          rw [Finset.sum_mul_sum]
          exact Finset.sum_congr rfl fun i _ => Finset.sum_congr rfl fun j _ => by ring
      _ = ∑ t ∈ Finset.range L, (∑ i ∈ Finset.range m, v i * A i t) ^ 2 := by
          refine Finset.sum_congr rfl fun t _ => ?_
          rw [sq]
  rw [hswap]
  exact Finset.sum_nonneg (fun t _ => sq_nonneg _)

/-- Each per-chunk scatter contribution is symmetric and positive semidefinite. -/
theorem symGram_outerAcc (block : List ℕ) (chunk : List (ℕ → ℚ)) :
    SymGram (outerAcc block chunk) := by
  constructor
  · intro i j
    unfold outerAcc mulF transposeF
    exact Finset.sum_congr rfl (fun t _ => mul_comm _ _)
  · intro m v
    exact gram_nonneg (augChunk block chunk) chunk.length m v

/-- Every scatter matrix held in the accumulation state is symmetric and positive
semidefinite, at every point of the chunk loop. -/
theorem accum_symgram (layer : Layer ℚ) :
    ∀ (chs : List (List (ℕ → ℚ))) (st : List (FMat ℚ × Option (FMat ℚ))),
      (∀ sp ∈ st, SymGram sp.1) →
      ∀ sp ∈ chs.foldl (innerLoop layer) st, SymGram sp.1 := by
  have hinner : ∀ (c : List (ℕ → ℚ)) (fs : List ℕ)
      (st : List (FMat ℚ × Option (FMat ℚ))), (∀ sp ∈ st, SymGram sp.1) →
      ∀ sp ∈ fs.foldl (updateFold layer c) st, SymGram sp.1 := by
    intro c fs
    induction fs with
    | nil =>
      intro st h
      simpa using h
    | cons f fs IHf =>
      intro st hst
      rw [List.foldl_cons]
      refine IHf _ ?_
      intro sp hsp
      simp only [updateFold] at hsp
      by_cases hlen : st.length ≤ f
      · rw [if_pos hlen, if_pos hlen] at hsp
        rcases List.mem_append.1 hsp with h | h
        · exact hst _ h
        · rcases List.mem_singleton.1 h with rfl
          exact symGram_add symGram_zero (symGram_outerAcc _ _)
      · rw [if_neg hlen, if_neg hlen] at hsp
        rcases List.mem_or_eq_of_mem_set hsp with h | h
        · exact hst _ h
        · subst h
          refine symGram_add ?_ (symGram_outerAcc _ _)
          rw [List.getD_eq_getElem _ _ (Nat.lt_of_not_le hlen)]
          exact hst _ (List.getElem_mem _)
  intro chs
  induction chs with
  | nil =>
    intro st h
    simpa using h
  | cons c cst IH =>
    intro st h
    rw [List.foldl_cons]
    exact IH _ (hinner c _ st h)

end SymPsd

/-- C8: at every point during accumulation (after any number `t` of chunk updates)
each fold's scatter matrix is symmetric, and every quadratic form over it is
nonnegative (positive semidefiniteness), being a sum of outer products. -/
theorem c8_scatter_sym_psd (layer : Layer ℚ) (corpus : List (ℕ → ℚ)) (cs t f : ℕ) :
    (∀ i j,
      ((((chunks cs corpus).take t).foldl (innerLoop layer) []).getD f (0, none)).1 i j =
      ((((chunks cs corpus).take t).foldl (innerLoop layer) []).getD f (0, none)).1 j i) ∧
    ∀ (m : ℕ) (v : ℕ → ℚ),
      0 ≤ ∑ i ∈ Finset.range m, ∑ j ∈ Finset.range m,
        v i * ((((chunks cs corpus).take t).foldl
          (innerLoop layer) []).getD f (0, none)).1 i j * v j := by
  have hsg : SymGram
      ((((chunks cs corpus).take t).foldl (innerLoop layer) []).getD f (0, none)).1 := by
    by_cases hf : f < (((chunks cs corpus).take t).foldl (innerLoop layer) []).length
    · rw [List.getD_eq_getElem _ _ hf]
      exact accum_symgram layer _ [] (by simp) _ (List.getElem_mem hf)
    · rw [List.getD_eq_default _ _ (Nat.le_of_not_lt hf)]
      exact symGram_zero
  exact ⟨hsg.1, hsg.2⟩

section LstSq

/-- Squared Frobenius norm of the leading `p × q` region of a functional matrix. -/
def frobSq (p q : ℕ) (M : FMat ℚ) : ℚ :=
  ∑ i ∈ Finset.range p, ∑ j ∈ Finset.range q, (M i j) ^ 2

/-- Characterization of the external solver `np.linalg.lstsq` on a `p × p` system
with `q` right-hand sides: `X` minimizes the residual of `A·X = B`, and among all
residual minimizers it has minimal norm. -/
def IsMinNormLSQ (p q : ℕ) (A B X : FMat ℚ) : Prop :=
  (∀ Y : FMat ℚ, frobSq p q (mulF A X p - B) ≤ frobSq p q (mulF A Y p - B)) ∧
  (∀ Y : FMat ℚ, frobSq p q (mulF A Y p - B) ≤ frobSq p q (mulF A X p - B) →
    frobSq p q X ≤ frobSq p q Y)

/-- For a `1 × 1` system whose matrix entry is `1`, the right-hand side itself is the
minimum-norm least-squares solution. -/
theorem isMinNormLSQ_one_dim (A B : FMat ℚ) (hA : A 0 0 = 1) :
    IsMinNormLSQ 1 1 A B B := by
  have hfrob : ∀ M : FMat ℚ, frobSq 1 1 M = M 0 0 ^ 2 := by
    intro M
    simp [frobSq]
  have hmul : ∀ X : FMat ℚ, mulF A X 1 0 0 = X 0 0 := by
    intro X
    simp [mulF, hA]
  have h0 : (mulF A B 1 - B) 0 0 = 0 := by
    simp [Pi.sub_apply, hmul]
  constructor
  · intro Y
    rw [hfrob, hfrob, h0]
    simpa using sq_nonneg ((mulF A Y 1 - B) 0 0)
  · intro Y hY
    rw [hfrob, hfrob, h0] at hY
    have hx2 : ((mulF A Y 1 - B) 0 0) ^ 2 ≤ 0 := by simpa using hY
    have hx0 : (mulF A Y 1 - B) 0 0 = 0 :=
      (pow_eq_zero_iff (two_ne_zero)).1
        (le_antisymm hx2 (sq_nonneg _))
    have hYB : Y 0 0 = B 0 0 := by
      have h := hx0
      simp only [Pi.sub_apply] at h
      rw [hmul] at h
      linarith
    rw [hfrob, hfrob, hYB]

end LstSq

/-- C2: the fold's trained weight matrix is (the transpose of) the solver's output
on the system `(Q + reg) · Wᵀ = Pᵀ`; assuming the solver meets the documented
`np.linalg.lstsq` contract, `Wᵀ` is the minimum-norm least-squares solution of that
system.  The regularizer is `lambda_` on every non-bias diagonal entry, `0` at the
bias diagonal and off the diagonal; `P` defaults to the fold's scatter matrix when
no target representation was accumulated, and every non-bias column of `P` is
scaled by `(1 - noise)` before solving.  The solver is applied unconditionally (the
theorem carries no invertibility hypothesis), so a singular or ill-conditioned
system does not fail the fold. -/
theorem c2_weights_minnorm_lstsq (solve : FMat ℚ → FMat ℚ → FMat ℚ) (r m : ℕ)
    (noise lam : ℚ) (scatter : FMat ℚ) (Popt : Option (FMat ℚ))
    (hsolve : IsMinNormLSQ (r + 1) m
      (computeQ r noise scatter + regMat r lam)
      (transposeF (scaleP r noise (Popt.getD scatter)))
      (solve (computeQ r noise scatter + regMat r lam)
        (transposeF (scaleP r noise (Popt.getD scatter))))) :
    IsMinNormLSQ (r + 1) m
      (computeQ r noise scatter + regMat r lam)
      (transposeF (scaleP r noise (Popt.getD scatter)))
      (transposeF (foldTrainWeights solve r noise lam scatter Popt)) ∧
    (∀ i, i < r → regMat r lam i i = lam) ∧
    regMat r lam r r = 0 ∧
    (∀ i j, i ≠ j → regMat r lam i j = 0) ∧
    (Popt = none →
      scaleP r noise (Popt.getD scatter) = scaleP r noise scatter) ∧
    (∀ (P : FMat ℚ) i j, j < r → scaleP r noise P i j = P i j * (1 - noise)) ∧
    (∀ (P : FMat ℚ) i, scaleP r noise P i r = P i r) := by
  refine ⟨hsolve, ?_, ?_, ?_, ?_, ?_, ?_⟩
  · intro i hir
    have hne : i ≠ r := Nat.ne_of_lt hir
    simp [regMat, hne, Nat.lt_succ_of_lt hir]
  · simp [regMat]
  · intro i j hij
    have h1 : ¬(i = r ∧ j = r) := fun h => hij (h.1.trans h.2.symm)
    simp [regMat, h1, hij]
  · intro h
    rw [h]
    rfl
  · intro P i j hj
    simp [scaleP, hj]
  · intro P i
    simp [scaleP]

/-- C2 witness: a concrete `1 × 1` fold (`r = 0`) with the all-ones scatter, noise
`1/2`, no regularization, self-reconstruction target, and the solver that returns
the right-hand side (which meets the contract there since `Q + reg` is the `1 × 1`
identity). -/
theorem c2_weights_minnorm_lstsq_witness :
    IsMinNormLSQ 1 1
      (computeQ 0 ((1 : ℚ)/2) (fun _ _ => 1) + regMat 0 0)
      (transposeF (scaleP 0 ((1 : ℚ)/2) ((none : Option (FMat ℚ)).getD (fun _ _ => 1))))
      (transposeF (foldTrainWeights (fun _ B => B) 0 ((1 : ℚ)/2) 0 (fun _ _ => 1)
        (none : Option (FMat ℚ)))) ∧
    (∀ i, i < 0 → regMat 0 (0 : ℚ) i i = 0) ∧
    regMat 0 (0 : ℚ) 0 0 = 0 ∧
    (∀ i j, i ≠ j → regMat 0 (0 : ℚ) i j = 0) ∧
    ((none : Option (FMat ℚ)) = none →
      scaleP 0 ((1 : ℚ)/2) ((none : Option (FMat ℚ)).getD (fun _ _ => 1)) =
        scaleP 0 ((1 : ℚ)/2) (fun _ _ => 1)) ∧
    (∀ (P : FMat ℚ) i j, j < 0 → scaleP 0 ((1 : ℚ)/2) P i j = P i j * (1 - (1 : ℚ)/2)) ∧
    (∀ (P : FMat ℚ) i, scaleP 0 ((1 : ℚ)/2) P i 0 = P i 0) :=
  c2_weights_minnorm_lstsq (fun _ B => B) 0 1 ((1 : ℚ)/2) 0 (fun _ _ => 1) none
    (isMinNormLSQ_one_dim _ _
      (by norm_num [computeQ, regMat, corruptionVec, Pi.add_apply]))

/-- C6: with `noise = 0` the derived matrix `Q` is exactly the scatter matrix, and
with `lambda_ = 0` as well the trained fold weights are (the transpose of) the
minimum-norm least-squares solution of the unregularized system
`scatter · Wᵀ = Pᵀ`, where `P` (unscaled, since `1 - noise = 1`) defaults to the
scatter matrix itself. -/
theorem c6_noise_zero (solve : FMat ℚ → FMat ℚ → FMat ℚ) (r m : ℕ)
    (scatter : FMat ℚ) (Popt : Option (FMat ℚ))
    (hsolve : IsMinNormLSQ (r + 1) m
      (computeQ r 0 scatter + regMat r 0)
      (transposeF (scaleP r 0 (Popt.getD scatter)))
      (solve (computeQ r 0 scatter + regMat r 0)
        (transposeF (scaleP r 0 (Popt.getD scatter))))) :
    computeQ r (0 : ℚ) scatter = scatter ∧
    IsMinNormLSQ (r + 1) m scatter (transposeF (Popt.getD scatter))
      (transposeF (foldTrainWeights solve r 0 0 scatter Popt)) := by
  have hQ : computeQ r (0 : ℚ) scatter = scatter := by
    funext i j
    simp only [computeQ, corruptionVec, sub_zero, one_pow, mul_one, div_one,
      one_div, inv_one, ite_self]
    split_ifs with h1
    · rw [h1.1, one_mul]
    · rfl
  have hreg : regMat r (0 : ℚ) = 0 := by
    funext i j
    simp [regMat]
  have hscale : ∀ P : FMat ℚ, scaleP r (0 : ℚ) P = P := by
    intro P
    funext i j
    simp [scaleP]
  have hA : computeQ r (0 : ℚ) scatter + regMat r 0 = scatter := by
    rw [hQ, hreg, add_zero]
  have hB : scaleP r (0 : ℚ) (Popt.getD scatter) = Popt.getD scatter := hscale _
  have hX : transposeF (foldTrainWeights solve r 0 0 scatter Popt) =
      solve scatter (transposeF (Popt.getD scatter)) := by
    show solve (computeQ r (0 : ℚ) scatter + regMat r 0)
        (transposeF (scaleP r 0 (Popt.getD scatter))) =
      solve scatter (transposeF (Popt.getD scatter))
    rw [hA, hB]
  rw [hA, hB] at hsolve
  refine ⟨hQ, ?_⟩
  rw [hX]
  exact hsolve

/-- C6 witness: the concrete `1 × 1` fold with all-ones scatter, `noise = 0`,
`lambda_ = 0`, self-reconstruction target, solver returning the right-hand side. -/
theorem c6_noise_zero_witness :
    computeQ 0 (0 : ℚ) (fun _ _ => 1) = (fun _ _ => 1) ∧
    IsMinNormLSQ 1 1 (fun _ _ => 1)
      (transposeF ((none : Option (FMat ℚ)).getD (fun _ _ => 1)))
      (transposeF (foldTrainWeights (fun _ B => B) 0 0 0 (fun _ _ => 1)
        (none : Option (FMat ℚ)))) :=
  c6_noise_zero (fun _ B => B) 0 1 (fun _ _ => 1) none
    (isMinNormLSQ_one_dim _ _
      (by norm_num [computeQ, regMat, corruptionVec, Pi.add_apply]))

section Inference

/-- The incremental running average `avg += (1/(k+1)) * (new - avg)` over a nonempty
fold range equals the arithmetic mean of the per-fold values. -/
theorem runningFoldAvg_eq_mean {M : Type} [AddCommGroup M] [Module ℝ M]
    (h : ℕ → M) :
    ∀ n : ℕ, 1 ≤ n →
      runningFoldAvg ℝ h n =
        some ((1 / (n : ℝ)) • ∑ k ∈ Finset.range n, h k) := by
  intro n
  induction n with
  | zero => intro h0; omega
  | succ n IH =>
    intro _
    rcases Nat.eq_zero_or_pos n with hn | hn
    · subst hn
      simp [runningFoldAvg]
      rw [show List.range 1 = [0] from rfl]
      rfl
    · have hmean := IH hn
      unfold runningFoldAvg at hmean ⊢
      rw [List.range_succ, List.foldl_append, hmean, List.foldl_cons, List.foldl_nil]
      have hn0 : (n : ℝ) ≠ 0 := Nat.cast_ne_zero.2 (by omega)
      show some ((1 / (n : ℝ)) • ∑ k ∈ Finset.range n, h k +
          (1 / ((n : ℝ) + 1)) • (h n - (1 / (n : ℝ)) • ∑ k ∈ Finset.range n, h k)) =
        some ((1 / ((n + 1 : ℕ) : ℝ)) • ∑ k ∈ Finset.range (n + 1), h k)
      congr 1
      have hcast : ((n + 1 : ℕ) : ℝ) = (n : ℝ) + 1 := by push_cast; ring
      rw [Finset.sum_range_succ, hcast, smul_sub, smul_add, smul_smul]
      have hcb : (1 / ((n : ℝ) + 1)) * (1 / (n : ℝ)) =
          1 / (n : ℝ) - 1 / ((n : ℝ) + 1) := by
        have hn1 : (n : ℝ) + 1 ≠ 0 := by positivity
        field_simp
        ring
      rw [hcb, sub_smul]
      abel

/-- The running-average loop only depends on the per-fold values at the visited
fold indices. -/
theorem runningFoldAvg_congr_list {M : Type} [AddCommGroup M] [Module ℝ M]
    (h1 h2 : ℕ → M) :
    ∀ (l : List ℕ) (acc : Option M), (∀ k ∈ l, h1 k = h2 k) →
      (l.foldl (fun avg k =>
        match avg with
        | none => some (h1 k)
        | some a => some (a + (1 / ((k : ℝ) + 1)) • (h1 k - a))) acc) =
      (l.foldl (fun avg k =>
        match avg with
        | none => some (h2 k)
        | some a => some (a + (1 / ((k : ℝ) + 1)) • (h2 k - a))) acc) := by
  intro l
  induction l with
  | nil => intro acc _; rfl
  | cons x xs IH =>
    intro acc hh
    rw [List.foldl_cons, List.foldl_cons]
    have hx : h1 x = h2 x := hh x (List.mem_cons_self x xs)
    have hstep : (match acc with
        | none => some (h1 x)
        | some a => some (a + (1 / ((x : ℝ) + 1)) • (h1 x - a))) =
        (match acc with
        | none => some (h2 x)
        | some a => some (a + (1 / ((x : ℝ) + 1)) • (h2 x - a))) := by
      rcases acc with _ | a <;> simp [hx]
    rw [hstep]
    exact IH _ (fun k hk => hh k (List.mem_cons_of_mem x hk))

/-- Strict bounds of the hyperbolic tangent. -/
theorem tanh_bounds (x : ℝ) : -1 < Real.tanh x ∧ Real.tanh x < 1 := by
  have hc : 0 < Real.cosh x := Real.cosh_pos x
  have h1 : Real.cosh x - Real.sinh x = Real.exp (-x) := Real.cosh_sub_sinh x
  have h2 : Real.cosh x + Real.sinh x = Real.exp x := Real.cosh_add_sinh x
  have he1 : 0 < Real.exp (-x) := Real.exp_pos _
  have he2 : 0 < Real.exp x := Real.exp_pos _
  rw [Real.tanh_eq_sinh_div_cosh]
  constructor
  · rw [lt_div_iff₀ hc]
    linarith
  · rw [div_lt_one hc]
    linarith

end Inference

/-- C7: inference computes, per fold in index order, `weights[fold] · augmented_input`
(embedded in `foldHidden`), maintains the running average via the incremental
update `avg += (1/(k+1)) * (new - avg)` — which for at least one fold equals the
arithmetic mean of the per-fold hidden representations — and finally applies the
elementwise hyperbolic tangent. -/
theorem c7_inference_mean_tanh (layer : Layer ℝ) (X : FMat ℝ)
    (hn : 1 ≤ layer.num_folds) :
    getHiddenRepresentations layer X =
      some (fun i j => Real.tanh ((1 / (layer.num_folds : ℝ)) *
        ∑ f ∈ Finset.range layer.num_folds, foldHidden layer X f i j)) := by
  unfold getHiddenRepresentations getHiddenAvg
  rw [runningFoldAvg_eq_mean (foldHidden layer X) layer.num_folds hn,
    Option.map_some']
  congr 1
  funext i j
  congr 1
  rw [Pi.smul_apply, Pi.smul_apply, Finset.sum_apply, Finset.sum_apply, smul_eq_mul]

/-- Concrete one-fold layer over the reals used by the inference witnesses. -/
def wLayer : Layer ℝ :=
  { noise := 0, lambda_ := 0, input_dimensionality := 1, output_dimensionality := 1,
    prototype_ids := none, randomized_indices := [0], num_folds := 1,
    blocks := [fun _ _ => 0] }

/-- C7 witness at the concrete one-fold layer and the zero input. -/
theorem c7_inference_mean_tanh_witness :
    getHiddenRepresentations wLayer (fun _ _ => 0) =
      some (fun i j => Real.tanh ((1 / (wLayer.num_folds : ℝ)) *
        ∑ f ∈ Finset.range wLayer.num_folds,
          foldHidden wLayer (fun _ _ => 0) f i j)) :=
  c7_inference_mean_tanh wLayer (fun _ _ => 0) (by decide)

/-- C9: for a trained layer (at least one fold) inference always succeeds and every
entry of the transformed representation lies strictly between `-1` and `1`. -/
theorem c9_output_bounded (layer : Layer ℝ) (X : FMat ℝ)
    (hn : 1 ≤ layer.num_folds) :
    ∃ Y : FMat ℝ, getHiddenRepresentations layer X = some Y ∧
      ∀ i j, -1 < Y i j ∧ Y i j < 1 := by
  unfold getHiddenRepresentations getHiddenAvg
  rw [runningFoldAvg_eq_mean (foldHidden layer X) layer.num_folds hn,
    Option.map_some']
  exact ⟨_, rfl, fun i j => tanh_bounds _⟩

/-- C9 witness at the concrete one-fold layer and the zero input. -/
theorem c9_output_bounded_witness :
    ∃ Y : FMat ℝ, getHiddenRepresentations wLayer (fun _ _ => 0) = some Y ∧
      ∀ i j, -1 < Y i j ∧ Y i j < 1 :=
  c9_output_bounded wLayer (fun _ _ => 0) (by decide)

/-- Length of the accumulated statistics list after a pass over a nonempty corpus. -/
theorem accumulate_length {α : Type} [Field α] (layer : Layer α)
    (corpus : List (ℕ → α)) (cs : ℕ) (h : corpus ≠ []) :
    (accumulate layer corpus cs).length = layer.num_folds := by
  rcases corpus with _ | ⟨x, xs⟩
  · exact absurd rfl h
  · unfold accumulate
    rw [foldl_innerLoop_closed layer _ (by rw [chunks]; exact List.cons_ne_nil _ _)]
    simp

/-- One training pass appends exactly one weight matrix per fold. -/
theorem newBlocks_length {α : Type} [Field α] (solve : FMat α → FMat α → FMat α)
    (layer : Layer α) (corpus : List (ℕ → α)) (cs : ℕ) (h : corpus ≠ []) :
    (newBlocks solve layer corpus cs).length = layer.num_folds := by
  unfold newBlocks
  rw [List.length_map, List.enum_length, accumulate_length _ _ _ h]

/-- Reading inside the left part of an appended list. -/
theorem getD_append_left {σ : Type} (l l' : List σ) (f : ℕ) (d : σ)
    (h : f < l.length) :
    (l ++ l').getD f d = l.getD f d := by
  rw [List.getD_eq_getElem _ _ (by simp only [List.length_append]; omega),
    List.getD_eq_getElem _ _ h, List.getElem_append_left h]

/-- C10: a second train call on an already trained layer does not raise; it appends
another `num_folds` weight matrices (for a total of `2 * num_folds`), the first
training's weights remain in positions `0 … num_folds - 1`, and inference — which
reads exactly those positions — is unchanged. -/
theorem c10_retrain_appends (solve : FMat ℝ → FMat ℝ → FMat ℝ) (L : Layer ℝ)
    (c₁ c₂ : List (ℕ → ℝ)) (cs₁ cs₂ : ℕ) (l₁ : Layer ℝ) (p₁ : ℕ)
    (hb : L.blocks = []) (hc₁ : c₁ ≠ []) (hc₂ : c₂ ≠ [])
    (htrain : train solve L c₁ cs₁ = Except.ok (l₁, p₁)) :
    ∃ (l₂ : Layer ℝ) (p₂ : ℕ),
      train solve l₁ c₂ cs₂ = Except.ok (l₂, p₂) ∧
      l₁.blocks.length = L.num_folds ∧
      l₂.blocks.length = 2 * L.num_folds ∧
      l₂.blocks.take L.num_folds = l₁.blocks ∧
      ∀ X : FMat ℝ, getHiddenRepresentations l₂ X = getHiddenRepresentations l₁ X := by
  unfold train at htrain
  by_cases hcond : L.input_dimensionality ≠ L.output_dimensionality ∧
      L.prototype_ids = none
  · rw [if_pos hcond] at htrain
    exact absurd htrain (by simp)
  · rw [if_neg hcond] at htrain
    have hpair : trainBody solve L c₁ cs₁ = (l₁, p₁) := by
      injection htrain
    have hl₁ : l₁ = (trainBody solve L c₁ cs₁).1 := by rw [hpair]
    subst hl₁
    have hlb : (trainBody solve L c₁ cs₁).1.blocks =
        newBlocks solve L c₁ cs₁ := by
      show L.blocks ++ newBlocks solve L c₁ cs₁ = newBlocks solve L c₁ cs₁
      rw [hb, List.nil_append]
    have hlen₁ : (trainBody solve L c₁ cs₁).1.blocks.length = L.num_folds := by
      rw [hlb, newBlocks_length _ _ _ _ hc₁]
    refine ⟨(trainBody solve (trainBody solve L c₁ cs₁).1 c₂ cs₂).1,
      (trainBody solve (trainBody solve L c₁ cs₁).1 c₂ cs₂).2, ?_, hlen₁, ?_, ?_, ?_⟩
    · have hcond' : ¬((trainBody solve L c₁ cs₁).1.input_dimensionality ≠
          (trainBody solve L c₁ cs₁).1.output_dimensionality ∧
          (trainBody solve L c₁ cs₁).1.prototype_ids = none) := hcond
      show (if (trainBody solve L c₁ cs₁).1.input_dimensionality ≠
            (trainBody solve L c₁ cs₁).1.output_dimensionality ∧
            (trainBody solve L c₁ cs₁).1.prototype_ids = none then
          Except.error TrainError.configError
        else Except.ok (trainBody solve (trainBody solve L c₁ cs₁).1 c₂ cs₂)) = _
      rw [if_neg hcond']
    · show ((trainBody solve L c₁ cs₁).1.blocks ++
        newBlocks solve (trainBody solve L c₁ cs₁).1 c₂ cs₂).length = 2 * L.num_folds
      rw [List.length_append, hlen₁, newBlocks_length _ _ _ _ hc₂]
      show L.num_folds + L.num_folds = 2 * L.num_folds
      omega
    · show ((trainBody solve L c₁ cs₁).1.blocks ++
        newBlocks solve (trainBody solve L c₁ cs₁).1 c₂ cs₂).take L.num_folds =
        (trainBody solve L c₁ cs₁).1.blocks
      rw [← hlen₁]
      exact List.take_left _ _
    · intro X
      have hfold : ∀ f, f < L.num_folds →
          foldHidden (trainBody solve (trainBody solve L c₁ cs₁).1 c₂ cs₂).1 X f =
          foldHidden (trainBody solve L c₁ cs₁).1 X f := by
        intro f hf
        have hgd : (trainBody solve (trainBody solve L c₁ cs₁).1 c₂ cs₂).1.blocks.getD
            f 0 = (trainBody solve L c₁ cs₁).1.blocks.getD f 0 := by
          show ((trainBody solve L c₁ cs₁).1.blocks ++
            newBlocks solve (trainBody solve L c₁ cs₁).1 c₂ cs₂).getD f 0 = _
          exact getD_append_left _ _ _ _ (by rw [hlen₁]; exact hf)
        unfold foldHidden
        rw [hgd]
        rfl
      unfold getHiddenRepresentations
      have havg : getHiddenAvg (trainBody solve (trainBody solve L c₁ cs₁).1 c₂ cs₂).1 X =
          getHiddenAvg (trainBody solve L c₁ cs₁).1 X := by
        unfold getHiddenAvg runningFoldAvg
        exact runningFoldAvg_congr_list _ _ (List.range L.num_folds) none
          (fun k hk => hfold k (List.mem_range.1 hk))
      rw [havg]

/-- Concrete untrained one-fold layer over the reals used by the retraining witness. -/
def wLayer0 : Layer ℝ :=
  { noise := 0, lambda_ := 0, input_dimensionality := 1, output_dimensionality := 1,
    prototype_ids := none, randomized_indices := [0], num_folds := 1, blocks := [] }

/-- C10 witness: train the concrete layer twice on a one-document corpus with the
solver that returns its right-hand side. -/
theorem c10_retrain_appends_witness :
    ∃ (l₂ : Layer ℝ) (p₂ : ℕ),
      train (fun _ B => B)
          (trainBody (fun _ B => B) wLayer0 [fun _ => 0] 1).1 [fun _ => 0] 1 =
        Except.ok (l₂, p₂) ∧
      (trainBody (fun _ B => B) wLayer0 [fun _ => 0] 1).1.blocks.length =
        wLayer0.num_folds ∧
      l₂.blocks.length = 2 * wLayer0.num_folds ∧
      l₂.blocks.take wLayer0.num_folds =
        (trainBody (fun _ B => B) wLayer0 [fun _ => 0] 1).1.blocks ∧
      ∀ X : FMat ℝ, getHiddenRepresentations l₂ X =
        getHiddenRepresentations
          (trainBody (fun _ B => B) wLayer0 [fun _ => 0] 1).1 X :=
  c10_retrain_appends (fun _ B => B) wLayer0 [fun _ => 0] [fun _ => 0] 1 1
    (trainBody (fun _ B => B) wLayer0 [fun _ => 0] 1).1
    (trainBody (fun _ B => B) wLayer0 [fun _ => 0] 1).2
    rfl (List.cons_ne_nil _ _) (List.cons_ne_nil _ _) rfl

end MDA
